import Mathlib

/-!
Shallow embedding of the marzipano input-control composition engine
(src/controls/Controls.js), of the delay primitive (src/Timer.js) and of the
per-frame view-update step, together with proofs of the specified properties.

Control-method instances are identified by natural numbers; the engine never
inspects them beyond identity, matching the capability contract. Registry
objects (JavaScript objects keyed by strings, iterated in insertion order)
are embedded as association lists with unique keys.
-/

namespace Marzipano

/-- Events emitted by the Controls engine. -/
inductive Ev where
  | active
  | inactive
  | enabled
  | disabled
  | methodEnabled (id : String)
  | methodDisabled (id : String)
deriving DecidableEq, Repr

/-- A registration record, one per registered id (Controls.js registerMethod). -/
structure MethodRec where
  instance_ : Nat
  enabled : Bool
  active : Bool
deriving DecidableEq, Repr

/-- State of the Controls engine. The composer field is the Composer membership
set, a list of control-method instances. -/
structure Controls where
  methods : List (String × MethodRec)
  methodGroups : List (String × List String)
  composer : List Nat
  enabled : Bool
  activeCount : Int
deriving DecidableEq, Repr

/-- Lookup in an association list (JavaScript property read). -/
def getA {β : Type} : List (String × β) → String → Option β
  | [], _ => none
  | (k, v) :: rest, id => if k = id then some v else getA rest id

/-- Replace the binding of an existing key in place (JavaScript property write
on an existing key keeps its position). -/
def setA {β : Type} : List (String × β) → String → β → List (String × β)
  | [], _, _ => []
  | (k, v) :: rest, id, w => if k = id then (k, w) :: rest else (k, v) :: setA rest id w

/-- Remove a key (JavaScript delete). -/
def delA {β : Type} : List (String × β) → String → List (String × β)
  | [], _ => []
  | (k, v) :: rest, id => if k = id then rest else (k, v) :: delA rest id

/-- Write a binding, replacing in place when the key exists and appending
otherwise (JavaScript property assignment). -/
def putA {β : Type} (l : List (String × β)) (id : String) (w : β) : List (String × β) :=
  if (getA l id).isSome then setA l id w else l ++ [(id, w)]

/-- Modelled from the spec: Composer.js is not among the analysed sources; the
spec describes Composer membership as "exactly the set of records for which
enabled(record) && enabled(engine) holds", so membership is a set of
control-method instances queried by identity. -/
def composerHas (comp : List Nat) (inst : Nat) : Bool :=
  comp.contains inst

/-- Modelled from the spec: adding a control-method instance to the Composer
membership set. -/
def composerAdd (comp : List Nat) (inst : Nat) : List Nat :=
  comp ++ [inst]

/-- Modelled from the spec: removing a control-method instance from the
Composer membership set. -/
def composerRemove (comp : List Nat) (inst : Nat) : List Nat :=
  comp.filter fun j => !(j == inst)

/-- Result of one engine operation: the state after the call, the events the
engine emitted during the call, in order, and the error carried by the
exception when the call threw. -/
structure OpResult where
  s : Controls
  evs : List Ev
  err : Option String
deriving Repr

/-- A call that returned normally. -/
def okRes (s : Controls) (evs : List Ev) : OpResult :=
  { s := s, evs := evs, err := none }

/-- A call that threw before mutating anything. -/
def failRes (s : Controls) (msg : String) : OpResult :=
  { s := s, evs := [], err := some msg }

/-- One iteration of the Controls._updateComposer loop: engage the record
instance exactly when both the engine and the record are enabled. -/
def composerStep (eng : Bool) (m : MethodRec) (comp : List Nat) : List Nat :=
  let en := eng && m.enabled
  let c1 := if en && !(composerHas comp m.instance_) then composerAdd comp m.instance_ else comp
  if !en && composerHas c1 m.instance_ then composerRemove c1 m.instance_ else c1

/-- The loop of Controls._updateComposer over all records. -/
def updateComposerFold (eng : Bool) : List (String × MethodRec) → List Nat → List Nat
  | [], comp => comp
  | (_, m) :: rest, comp => updateComposerFold eng rest (composerStep eng m comp)

/-- Controls._updateComposer. -/
def updateComposer (s : Controls) : Controls :=
  { s with composer := updateComposerFold s.enabled s.methods s.composer }

/-- Controls._incrementActiveCount (the debug-only _checkActiveCount call is
inactive in a production build). -/
def incrementActiveCount (s : Controls) : Controls × List Ev :=
  let s1 := { s with activeCount := s.activeCount + 1 }
  (s1, if s1.enabled && s1.activeCount == 1 then [Ev.active] else [])

/-- Controls._decrementActiveCount. -/
def decrementActiveCount (s : Controls) : Controls × List Ev :=
  let s1 := { s with activeCount := s.activeCount - 1 }
  (s1, if s1.enabled && s1.activeCount == 0 then [Ev.inactive] else [])

/-- Controls._checkActiveCount: the recomputation the debug assertion compares
against the maintained counter. -/
def checkActiveCount (s : Controls) : Bool :=
  s.activeCount == Int.ofNat (s.methods.countP fun p => p.2.enabled && p.2.active)

/-- Controls.enableMethod. The _listen subscription has no observable state in
this embedding beyond the record flags. -/
def enableMethod (s : Controls) (id : String) : OpResult :=
  match getA s.methods id with
  | none => failRes s "No control method registered with id"
  | some m =>
    if m.enabled then okRes s []
    else
      let s1 := { s with methods := setA s.methods id { m with enabled := true } }
      let p := if m.active then incrementActiveCount s1 else (s1, [])
      okRes (updateComposer p.1) (p.2 ++ [Ev.methodEnabled id])

/-- Controls.disableMethod. -/
def disableMethod (s : Controls) (id : String) : OpResult :=
  match getA s.methods id with
  | none => failRes s "No control method registered with id"
  | some m =>
    if !m.enabled then okRes s []
    else
      let s1 := { s with methods := setA s.methods id { m with enabled := false } }
      let p := if m.active then decrementActiveCount s1 else (s1, [])
      okRes (updateComposer p.1) (p.2 ++ [Ev.methodDisabled id])

/-- Controls.registerMethod. -/
def registerMethod (s : Controls) (id : String) (inst : Nat) (en : Bool) : OpResult :=
  if (getA s.methods id).isSome then
    failRes s "Control method already registered with id"
  else
    let s1 := { s with methods := s.methods ++ [(id, ⟨inst, false, false⟩)] }
    if en then enableMethod s1 id else okRes s1 []

/-- Controls.unregisterMethod. -/
def unregisterMethod (s : Controls) (id : String) : OpResult :=
  match getA s.methods id with
  | none => failRes s "No control method registered with id"
  | some m =>
    let r := if m.enabled then disableMethod s id else okRes s []
    { s := { r.s with methods := delA r.s.methods id }, evs := r.evs, err := r.err }

/-- Controls.addMethodGroup (plain property assignment, replace on conflict). -/
def addMethodGroup (s : Controls) (gid : String) (ids : List String) : OpResult :=
  okRes { s with methodGroups := putA s.methodGroups gid ids } []

/-- Controls.removeMethodGroup. -/
def removeMethodGroup (s : Controls) (gid : String) : OpResult :=
  okRes { s with methodGroups := delA s.methodGroups gid } []

/-- The forEach in the group operations: apply f to each id in order; an
exception from f propagates, keeping the mutations made so far. -/
def runEach (f : Controls → String → OpResult) : Controls → List String → OpResult
  | s, [] => okRes s []
  | s, id :: rest =>
    let r := f s id
    match r.err with
    | some e => { s := r.s, evs := r.evs, err := some e }
    | none =>
      let r2 := runEach f r.s rest
      { s := r2.s, evs := r.evs ++ r2.evs, err := r2.err }

/-- Controls.enableMethodGroup. An unknown group id crashes in the source
(reading forEach of undefined), embedded as an error. -/
def enableMethodGroup (s : Controls) (gid : String) : OpResult :=
  match getA s.methodGroups gid with
  | none => failRes s "TypeError: cannot read forEach of undefined"
  | some ids => runEach enableMethod s ids

/-- Controls.disableMethodGroup. -/
def disableMethodGroup (s : Controls) (gid : String) : OpResult :=
  match getA s.methodGroups gid with
  | none => failRes s "TypeError: cannot read forEach of undefined"
  | some ids => runEach disableMethod s ids

/-- Controls.enable. -/
def enable (s : Controls) : OpResult :=
  if s.enabled then okRes s []
  else
    let s1 := { s with enabled := true }
    okRes (updateComposer s1)
      ((if 0 < s1.activeCount then [Ev.active] else []) ++ [Ev.enabled])

/-- Controls.disable. -/
def disable (s : Controls) : OpResult :=
  if !s.enabled then okRes s []
  else
    let s1 := { s with enabled := false }
    okRes (updateComposer s1)
      ((if 0 < s1.activeCount then [Ev.inactive] else []) ++ [Ev.disabled])

/-- Controls._handleActive: an activity-start event delivered for id. -/
def handleActive (s : Controls) (id : String) : OpResult :=
  match getA s.methods id with
  | none => failRes s "Bad method id"
  | some m =>
    if !m.enabled then failRes s "Should not receive event from disabled control method"
    else if !m.active then
      let s1 := { s with methods := setA s.methods id { m with active := true } }
      let p := incrementActiveCount s1
      okRes p.1 p.2
    else okRes s []

/-- Controls._handleInactive: an activity-end event delivered for id. -/
def handleInactive (s : Controls) (id : String) : OpResult :=
  match getA s.methods id with
  | none => failRes s "Bad method id"
  | some m =>
    if !m.enabled then failRes s "Should not receive event from disabled control method"
    else if m.active then
      let s1 := { s with methods := setA s.methods id { m with active := false } }
      let p := decrementActiveCount s1
      okRes p.1 p.2
    else okRes s []

/-- Options accepted by the Controls constructor; the enabled field may be
absent (none) or carry a boolean. -/
structure ControlsOpts where
  enabled : Option Bool
deriving DecidableEq, Repr

/-- The Controls constructor. The source computes
(opts && opts.enabled) ? !!opts.enabled : true after defaulting opts to an
empty object, so the condition is the truthiness of opts.enabled. -/
def controlsCtor (opts : Option ControlsOpts) : Controls :=
  let o := opts.getD { enabled := none }
  { methods := []
    methodGroups := []
    composer := []
    enabled := if o.enabled.getD false then o.enabled.getD false else true
    activeCount := 0 }

/-- The enabled() accessor. -/
def enabledQuery (s : Controls) : Bool :=
  s.enabled

/-- One externally triggered engine operation. -/
inductive Op where
  | register (id : String) (inst : Nat) (en : Bool)
  | unregister (id : String)
  | enableM (id : String)
  | disableM (id : String)
  | addGroup (gid : String) (ids : List String)
  | removeGroup (gid : String)
  | enableGroup (gid : String)
  | disableGroup (gid : String)
  | engineEnable
  | engineDisable
  | activeEv (id : String)
  | inactiveEv (id : String)
deriving DecidableEq, Repr

/-- Dispatch one operation. -/
def stepOp (s : Controls) : Op → OpResult
  | .register id inst en => registerMethod s id inst en
  | .unregister id => unregisterMethod s id
  | .enableM id => enableMethod s id
  | .disableM id => disableMethod s id
  | .addGroup gid ids => addMethodGroup s gid ids
  | .removeGroup gid => removeMethodGroup s gid
  | .enableGroup gid => enableMethodGroup s gid
  | .disableGroup gid => disableMethodGroup s gid
  | .engineEnable => enable s
  | .engineDisable => disable s
  | .activeEv id => handleActive s id
  | .inactiveEv id => handleInactive s id

/-- Run a sequence of operations, keeping the state an operation had mutated
when it threw (the exception propagates past the engine). -/
def runOps : Controls → List Op → Controls
  | s, [] => s
  | s, op :: rest => runOps (stepOp s op).s rest

/-! Basic unfolding lemmas. -/

@[simp]
theorem updateComposer_methods (s : Controls) : (updateComposer s).methods = s.methods := rfl

@[simp]
theorem updateComposer_enabled (s : Controls) : (updateComposer s).enabled = s.enabled := rfl

@[simp]
theorem updateComposer_activeCount (s : Controls) :
    (updateComposer s).activeCount = s.activeCount := rfl

@[simp]
theorem updateComposer_methodGroups (s : Controls) :
    (updateComposer s).methodGroups = s.methodGroups := rfl

@[simp]
theorem incrementActiveCount_fst_methods (s : Controls) :
    (incrementActiveCount s).1.methods = s.methods := rfl

@[simp]
theorem incrementActiveCount_fst_activeCount (s : Controls) :
    (incrementActiveCount s).1.activeCount = s.activeCount + 1 := rfl

@[simp]
theorem incrementActiveCount_fst_enabled (s : Controls) :
    (incrementActiveCount s).1.enabled = s.enabled := rfl

@[simp]
theorem incrementActiveCount_fst_composer (s : Controls) :
    (incrementActiveCount s).1.composer = s.composer := rfl

@[simp]
theorem incrementActiveCount_fst_methodGroups (s : Controls) :
    (incrementActiveCount s).1.methodGroups = s.methodGroups := rfl

@[simp]
theorem decrementActiveCount_fst_methods (s : Controls) :
    (decrementActiveCount s).1.methods = s.methods := rfl

@[simp]
theorem decrementActiveCount_fst_activeCount (s : Controls) :
    (decrementActiveCount s).1.activeCount = s.activeCount - 1 := rfl

@[simp]
theorem decrementActiveCount_fst_enabled (s : Controls) :
    (decrementActiveCount s).1.enabled = s.enabled := rfl

@[simp]
theorem decrementActiveCount_fst_composer (s : Controls) :
    (decrementActiveCount s).1.composer = s.composer := rfl

@[simp]
theorem decrementActiveCount_fst_methodGroups (s : Controls) :
    (decrementActiveCount s).1.methodGroups = s.methodGroups := rfl

/-! Example states used by the witness theorems. -/

/-- A state with one enabled, inactive method. -/
def sExA : Controls :=
  { methods := [("k", ⟨3, true, false⟩)]
    methodGroups := []
    composer := [3]
    enabled := true
    activeCount := 0 }

/-- A state with one disabled method whose sticky active flag is set. -/
def sExB : Controls :=
  { methods := [("k", ⟨3, false, true⟩)]
    methodGroups := []
    composer := []
    enabled := true
    activeCount := 0 }

/-- A state with one enabled, active method. -/
def sExC : Controls :=
  { methods := [("k", ⟨3, true, true⟩)]
    methodGroups := []
    composer := [3]
    enabled := true
    activeCount := 1 }

/-- C10: for every options argument to the Controls constructor, including an
options object with enabled set to false and no options at all, the new
engine reports enabled() = true; the engine cannot be constructed disabled. -/
theorem controls_constructed_enabled (opts : Option ControlsOpts) :
    (controlsCtor opts).enabled = true ∧ enabledQuery (controlsCtor opts) = true := by
  have h : (controlsCtor opts).enabled = true := by
    cases opts with
    | none => rfl
    | some o =>
      cases ho : o.enabled with
      | none => simp [controlsCtor, ho]
      | some b => cases b <;> simp [controlsCtor, ho]
  exact ⟨h, h⟩

/-- C4: enable() on a disabled engine with activeCount positive emits one
active event (before the enabled event); disable() on an enabled engine with
activeCount positive emits one inactive event; both toggles recompute the
Composer membership; enable()/disable() in the already-requested state change
nothing and emit nothing. -/
theorem engine_toggle_events (s : Controls) :
    (s.enabled = false → 0 < s.activeCount →
      (enable s).evs = [Ev.active, Ev.enabled]
        ∧ (enable s).s.composer = (updateComposer { s with enabled := true }).composer)
  ∧ (s.enabled = true → 0 < s.activeCount →
      (disable s).evs = [Ev.inactive, Ev.disabled]
        ∧ (disable s).s.composer = (updateComposer { s with enabled := false }).composer)
  ∧ (s.enabled = true → (enable s).s = s ∧ (enable s).evs = [])
  ∧ (s.enabled = false → (disable s).s = s ∧ (disable s).evs = []) := by
  refine ⟨fun h1 h2 => ?_, fun h1 h2 => ?_, fun h1 => ?_, fun h1 => ?_⟩
  · simp [enable, okRes, h1, h2]
  · simp [disable, okRes, h1, h2]
  · simp [enable, okRes, h1]
  · simp [disable, okRes, h1]

/-- Witness for C4 at concrete states. -/
theorem engine_toggle_events_witness :
    (disable sExC).evs = [Ev.inactive, Ev.disabled]
      ∧ (enable { sExC with enabled := false }).evs = [Ev.active, Ev.enabled] := by
  refine ⟨((engine_toggle_events sExC).2.1 rfl (by decide)).1, ?_⟩
  exact ((engine_toggle_events { sExC with enabled := false }).1 rfl (by decide)).1

/-- C5: enabling a registered, currently disabled method increments
activeCount exactly when the sticky active flag is set; when the flag is
clear, activeCount is unchanged and no active event is emitted. -/
theorem enableMethod_sticky_active (s : Controls) (id : String) (m : MethodRec)
    (hget : getA s.methods id = some m) (hdis : m.enabled = false) :
    (enableMethod s id).s.activeCount
        = s.activeCount + (if m.active = true then 1 else 0)
  ∧ (m.active = false →
      (enableMethod s id).s.activeCount = s.activeCount
        ∧ (enableMethod s id).evs.count Ev.active = 0) := by
  cases hact : m.active with
  | false => simp [enableMethod, hget, hdis, hact, okRes]
  | true => simp [enableMethod, hget, hdis, hact, okRes]

/-- Witness for C5: enabling the sticky-active method of sExB increments the
count; enabling the inactive method of a variant does not. -/
theorem enableMethod_sticky_active_witness :
    (enableMethod sExB "k").s.activeCount = sExB.activeCount + 1
      ∧ (enableMethod { sExB with methods := [("k", ⟨3, false, false⟩)] } "k").s.activeCount
          = sExB.activeCount
      ∧ (enableMethod { sExB with methods := [("k", ⟨3, false, false⟩)] } "k").evs.count Ev.active
          = 0 := by
  have h1 := enableMethod_sticky_active sExB "k" ⟨3, false, true⟩ rfl rfl
  have h2 := enableMethod_sticky_active { sExB with methods := [("k", ⟨3, false, false⟩)] }
    "k" ⟨3, false, false⟩ rfl rfl
  refine ⟨by simpa using h1.1, (h2.2 rfl).1, (h2.2 rfl).2⟩

/-- The condition under which _incrementActiveCount emits the active event,
as a proposition about the pre-increment state. -/
theorem incr_cond_iff (s : Controls) :
    (s.enabled && (s.activeCount + 1 == 1)) = true
      ↔ (s.enabled = true ∧ s.activeCount = 0) := by
  simp only [Bool.and_eq_true, beq_iff_eq]
  constructor
  · rintro ⟨h1, h2⟩
    exact ⟨h1, by omega⟩
  · rintro ⟨h1, h2⟩
    exact ⟨h1, by omega⟩

/-- The condition under which _decrementActiveCount emits the inactive event,
as a proposition about the pre-decrement state. -/
theorem decr_cond_iff (s : Controls) :
    (s.enabled && (s.activeCount - 1 == 0)) = true
      ↔ (s.enabled = true ∧ s.activeCount = 1) := by
  simp only [Bool.and_eq_true, beq_iff_eq]
  constructor
  · rintro ⟨h1, h2⟩
    exact ⟨h1, by omega⟩
  · rintro ⟨h1, h2⟩
    exact ⟨h1, by omega⟩

/-- C3: an activity-start event on an enabled, not-yet-active record
increments activeCount and emits exactly one active event precisely when the
engine is enabled and the count was 0 (so transitions among counts that stay
at least 1 emit nothing); an activity-end event on an active record
decrements the count and emits exactly one inactive event precisely on an
enabled 1-to-0 transition; enabling a method whose sticky active flag is set
emits one active event exactly on an enabled 0-to-1 transition. -/
theorem activity_transition_events (s : Controls) (id : String) (m : MethodRec)
    (hget : getA s.methods id = some m) :
    (m.enabled = true → m.active = false →
      (handleActive s id).err = none
        ∧ (handleActive s id).s.activeCount = s.activeCount + 1
        ∧ (handleActive s id).evs.count Ev.active
            = (if s.enabled = true ∧ s.activeCount = 0 then 1 else 0)
        ∧ (handleActive s id).evs.count Ev.inactive = 0)
  ∧ (m.enabled = true → m.active = true →
      (handleInactive s id).err = none
        ∧ (handleInactive s id).s.activeCount = s.activeCount - 1
        ∧ (handleInactive s id).evs.count Ev.inactive
            = (if s.enabled = true ∧ s.activeCount = 1 then 1 else 0)
        ∧ (handleInactive s id).evs.count Ev.active = 0)
  ∧ (m.enabled = false → m.active = true →
      (enableMethod s id).evs.count Ev.active
          = (if s.enabled = true ∧ s.activeCount = 0 then 1 else 0)
        ∧ (enableMethod s id).evs.count Ev.inactive = 0) := by
  refine ⟨fun he ha => ?_, fun he ha => ?_, fun he ha => ?_⟩
  · by_cases hp : s.enabled = true ∧ s.activeCount = 0
    · have hc : (s.enabled && (s.activeCount + 1 == 1)) = true := (incr_cond_iff s).mpr hp
      simp [handleActive, hget, he, ha, okRes, incrementActiveCount, hc, hp]
    · have hc : (s.enabled && (s.activeCount + 1 == 1)) = false := by
        cases hcc : (s.enabled && (s.activeCount + 1 == 1)) with
        | false => rfl
        | true => exact absurd ((incr_cond_iff s).mp hcc) hp
      simp [handleActive, hget, he, ha, okRes, incrementActiveCount, hc, hp]
  · by_cases hp : s.enabled = true ∧ s.activeCount = 1
    · have hc : (s.enabled && (s.activeCount - 1 == 0)) = true := (decr_cond_iff s).mpr hp
      simp [handleInactive, hget, he, ha, okRes, decrementActiveCount, hc, hp]
    · have hc : (s.enabled && (s.activeCount - 1 == 0)) = false := by
        cases hcc : (s.enabled && (s.activeCount - 1 == 0)) with
        | false => rfl
        | true => exact absurd ((decr_cond_iff s).mp hcc) hp
      simp [handleInactive, hget, he, ha, okRes, decrementActiveCount, hc, hp]
  · by_cases hp : s.enabled = true ∧ s.activeCount = 0
    · have hc : (s.enabled && (s.activeCount + 1 == 1)) = true := (incr_cond_iff s).mpr hp
      simp [enableMethod, hget, he, ha, okRes, incrementActiveCount, hc, hp]
    · have hc : (s.enabled && (s.activeCount + 1 == 1)) = false := by
        cases hcc : (s.enabled && (s.activeCount + 1 == 1)) with
        | false => rfl
        | true => exact absurd ((incr_cond_iff s).mp hcc) hp
      simp [enableMethod, hget, he, ha, okRes, incrementActiveCount, hc, hp]

/-- Witness for C3 at concrete states: a 0-to-1 start emits one active event,
a 1-to-0 end emits one inactive event. -/
theorem activity_transition_events_witness :
    (handleActive sExA "k").s.activeCount = sExA.activeCount + 1
      ∧ (handleActive sExA "k").evs.count Ev.active = 1
      ∧ (handleInactive sExC "k").evs.count Ev.inactive = 1 := by
  have h1 := (activity_transition_events sExA "k" ⟨3, true, false⟩ rfl).1 rfl rfl
  have h2 := (activity_transition_events sExC "k" ⟨3, true, true⟩ rfl).2.1 rfl rfl
  refine ⟨h1.2.1, ?_, ?_⟩
  · have h3 := h1.2.2.1
    simpa [sExA] using h3
  · have h3 := h2.2.2.1
    simpa [sExC] using h3

/-- Specification version of unregisterMethod, following the words of the
spec: perform the disable sequence first (disableMethod is a no-op on a
record that is already disabled), then delete the record; fail if the id is
unknown. -/
def specUnregisterMethod (s : Controls) (id : String) : OpResult :=
  match getA s.methods id with
  | none => failRes s "No control method registered with id"
  | some _ =>
    let r := disableMethod s id
    { s := { r.s with methods := delA r.s.methods id }, evs := r.evs, err := r.err }

/-- C7: unregisterMethod on a registered id produces exactly the outcome of
calling disableMethod first and then deleting the record (so in particular
activeCount and Composer membership agree); on an unknown id it fails with
no mutation. -/
theorem unregister_refines_disable_delete (s : Controls) (id : String) :
    ((getA s.methods id).isSome = true →
      unregisterMethod s id = specUnregisterMethod s id)
  ∧ (getA s.methods id = none →
      (unregisterMethod s id).err.isSome = true
        ∧ (unregisterMethod s id).s = s
        ∧ (unregisterMethod s id).evs = []) := by
  constructor
  · intro h
    match hg : getA s.methods id with
    | none => simp [hg] at h
    | some m =>
      cases he : m.enabled with
      | true => simp [unregisterMethod, specUnregisterMethod, hg, he]
      | false =>
        have hd : disableMethod s id = okRes s [] := by
          simp [disableMethod, hg, he, okRes]
        simp [unregisterMethod, specUnregisterMethod, hg, he, hd, okRes]
  · intro h
    simp [unregisterMethod, h, failRes]

/-- Witness for C7: unregistering the enabled active method of sExC agrees
with disable-then-delete, and an unknown id fails without mutation. -/
theorem unregister_refines_disable_delete_witness :
    unregisterMethod sExC "k" = specUnregisterMethod sExC "k"
      ∧ (unregisterMethod sExC "zz").s = sExC := by
  have h1 := (unregister_refines_disable_delete sExC "k").1 (by decide)
  have h2 := (unregister_refines_disable_delete sExC "zz").2 (by decide)
  exact ⟨h1, h2.2.1⟩

/-! The Timer delay primitive (src/Timer.js). Times are rationals; an
Infinity duration is modelled as none. The handle field holds the absolute
time at which the armed callback would run, none when no callback is armed. -/

/-- The single event a Timer emits. -/
inductive TEv where
  | timeout
deriving DecidableEq, Repr

/-- Timer state. -/
structure Timer where
  duration : Option ℚ
  startTime : Option ℚ
  handle : Option ℚ
deriving DecidableEq, Repr

/-- The Timer constructor: stopped and unarmed, duration defaulting to
Infinity when no options are given. -/
def timerCtor (d : Option (Option ℚ)) : Timer :=
  { duration := d.getD none, startTime := none, handle := none }

/-- Timer.start at current time t: record the start time, and arm the
callback only when no callback is armed and the duration is finite. -/
def timerStart (tm : Timer) (t : ℚ) : Timer :=
  match tm.handle, tm.duration with
  | none, some d => { tm with startTime := some t, handle := some (t + d) }
  | _, _ => { tm with startTime := some t }

/-- Timer.stop: clear the start time and disarm any callback. -/
def timerStop (tm : Timer) : Timer :=
  { tm with startTime := none, handle := none }

/-- Timer._check at current time t: tear down the armed callback, then either
fire the timeout (returning to the stopped state) when no time remains, or
re-arm for the remaining time when it is finite. A stopped timer (startTime
none) yields NaN arithmetic in the source, both comparisons fail, so only the
teardown happens; likewise an infinite duration never fires. -/
def timerCheck (tm : Timer) (t : ℚ) : Timer × List TEv :=
  match tm.startTime, tm.duration with
  | some st, some d =>
    let remaining := d - (t - st)
    if remaining ≤ 0 then
      ({ tm with handle := none, startTime := none }, [TEv.timeout])
    else
      ({ tm with handle := some (t + remaining) }, [])
  | some _, none => ({ tm with handle := none }, [])
  | none, _ => ({ tm with handle := none }, [])

/-- Timer.setDuration at current time t: store the new duration and, when the
timer is started, re-evaluate synchronously via _check. -/
def setDuration (tm : Timer) (d : Option ℚ) (t : ℚ) : Timer × List TEv :=
  let tm1 := { tm with duration := d }
  match tm1.startTime with
  | some _ => timerCheck tm1 t
  | none => (tm1, [])

/-- C8: on a started timer, setDuration with a new duration d at most the
elapsed time fires exactly one timeout synchronously inside the call and
leaves the timer stopped and unarmed; with d greater than the elapsed time it
fires nothing and re-arms the callback for start time plus d. -/
theorem setDuration_timeout_behavior (tm : Timer) (t0 t d : ℚ)
    (hst : tm.startTime = some t0) :
    (d ≤ t - t0 →
      (setDuration tm (some d) t).2 = [TEv.timeout]
        ∧ (setDuration tm (some d) t).1.startTime = none
        ∧ (setDuration tm (some d) t).1.handle = none)
  ∧ (t - t0 < d →
      (setDuration tm (some d) t).2 = []
        ∧ (setDuration tm (some d) t).1.startTime = some t0
        ∧ (setDuration tm (some d) t).1.handle = some (t0 + d)) := by
  constructor
  · intro h
    have hr : d - (t - t0) ≤ 0 := by linarith
    simp [setDuration, timerCheck, hst, hr]
  · intro h
    have hr : ¬(d - (t - t0) ≤ 0) := by
      intro hcc
      linarith
    simp [setDuration, timerCheck, hst, hr]
    ring

/-- Witness for C8: the spec scenario, duration 100 started at time 0, then
setDuration 10 at time 50 fires synchronously; setDuration 80 instead re-arms
for time 80. -/
theorem setDuration_timeout_behavior_witness :
    (setDuration (timerStart (timerCtor (some (some 100))) 0) (some 10) 50).2 = [TEv.timeout]
      ∧ (setDuration (timerStart (timerCtor (some (some 100))) 0) (some 10) 50).1.startTime
          = none
      ∧ (setDuration (timerStart (timerCtor (some (some 100))) 0) (some 80) 50).1.handle
          = some (0 + 80) := by
  have h1 := (setDuration_timeout_behavior (timerStart (timerCtor (some (some 100))) 0)
    0 50 10 rfl).1 (by norm_num)
  have h2 := (setDuration_timeout_behavior (timerStart (timerCtor (some (some 100))) 0)
    0 50 80 rfl).2 (by norm_num)
  exact ⟨h1.1, h1.2.1, h2.2.2⟩

/-! The per-frame view update (Controls._updateViewsWithControls). Views are
identified by natural numbers; the aggregate offset is abstract data. The
Composer query result is taken as input: its changing flag and offsets. -/

/-- Observable effects of one pre-render invocation: how often the Composer
was queried, how many extra frames were requested from the scheduler, and the
sequence of updateWithControlParameters calls as view-offset pairs. -/
structure FrameFx where
  composerQueries : Nat
  framesRequested : Nat
  updates : List (Nat × Int)
deriving DecidableEq, Repr

/-- The dedup loop over the layer list: update a view only when it is not in
updatedViews_ yet, then record it there. -/
def updateLoop (off : Int) : List Nat → List Nat → List (Nat × Int)
  | [], _ => []
  | v :: rest, seen =>
    if v ∈ seen then updateLoop off rest seen
    else (v, off) :: updateLoop off rest (seen ++ [v])

/-- Controls._updateViewsWithControls: query the Composer once, request one
more frame when the result is changing, and push the offsets to each distinct
view of the attached stage layers. -/
def updateViewsWithControls (changing : Bool) (off : Int) (layerViews : List Nat) : FrameFx :=
  { composerQueries := 1
    framesRequested := if changing then 1 else 0
    updates := updateLoop off layerViews [] }

/-- Each view receives the offsets once when it occurs among the layers and is
not yet deduplicated, and never otherwise. -/
theorem updateLoop_count (off : Int) (v : Nat) :
    ∀ (l seen : List Nat),
      (updateLoop off l seen).count (v, off) = if v ∈ l ∧ v ∉ seen then 1 else 0 := by
  intro l
  induction l with
  | nil =>
    intro seen
    simp [updateLoop]
  | cons u rest ih =>
    intro seen
    by_cases hu : u ∈ seen
    · rw [updateLoop, if_pos hu, ih seen]
      by_cases hv : v = u
      · subst hv
        simp [hu]
      · simp [List.mem_cons, hv]
    · rw [updateLoop, if_neg hu, List.count_cons, ih (seen ++ [u])]
      by_cases hv : v = u
      · subst hv
        simp [hu, List.mem_append]
      · simp [List.mem_cons, List.mem_append, hv, Ne.symm hv]

/-- Every update the loop performs carries the aggregate offsets and targets a
view of some layer. -/
theorem updateLoop_sound (off : Int) :
    ∀ (l seen : List Nat) (p : Nat × Int),
      p ∈ updateLoop off l seen → p.2 = off ∧ p.1 ∈ l := by
  intro l
  induction l with
  | nil =>
    intro seen p hp
    simp [updateLoop] at hp
  | cons u rest ih =>
    intro seen p hp
    rw [updateLoop] at hp
    by_cases hu : u ∈ seen
    · rw [if_pos hu] at hp
      have h2 := ih seen p hp
      exact ⟨h2.1, List.mem_cons_of_mem u h2.2⟩
    · rw [if_neg hu] at hp
      rcases List.mem_cons.mp hp with h1 | h2
      · subst h1
        exact ⟨rfl, List.mem_cons_self u rest⟩
      · have h3 := ih (seen ++ [u]) p h2
        exact ⟨h3.1, List.mem_cons_of_mem u h3.2⟩

/-- C9: each pre-render invocation queries the Composer exactly once,
requests exactly one extra frame when the result is changing and none
otherwise, and pushes the aggregate offsets to every view occurring among the
layers exactly once, deduplicated by view identity. -/
theorem update_views_once_per_frame (changing : Bool) (off : Int) (layerViews : List Nat) :
    (updateViewsWithControls changing off layerViews).composerQueries = 1
  ∧ (updateViewsWithControls changing off layerViews).framesRequested
      = (if changing = true then 1 else 0)
  ∧ (∀ v : Nat,
      (updateViewsWithControls changing off layerViews).updates.count (v, off)
        = if v ∈ layerViews then 1 else 0)
  ∧ (∀ p ∈ (updateViewsWithControls changing off layerViews).updates,
      p.2 = off ∧ p.1 ∈ layerViews) := by
  refine ⟨rfl, rfl, fun v => ?_, fun p hp => ?_⟩
  · have h := updateLoop_count off v layerViews []
    simpa [updateViewsWithControls] using h
  · exact updateLoop_sound off layerViews [] p hp

/-- Witness for C9 at a concrete frame: three layers sharing a view yield one
update per distinct view, and a changing composer requests one frame. -/
theorem update_views_once_per_frame_witness :
    (updateViewsWithControls true 7 [1, 2, 1]).framesRequested = 1
      ∧ (updateViewsWithControls true 7 [1, 2, 1]).updates.count (1, 7) = 1 := by
  have h := update_views_once_per_frame true 7 [1, 2, 1]
  refine ⟨by simpa using h.2.1, ?_⟩
  have h2 := h.2.2.1 1
  simpa using h2

/-! Infrastructure for the activeCount invariant (C1). -/

/-- The recount the debug assertion performs: records with both flags set. -/
def countActive (l : List (String × MethodRec)) : Nat :=
  l.countP fun p => p.2.enabled && p.2.active

/-- The maintained counter agrees with the recount. -/
def countOk (s : Controls) : Prop :=
  s.activeCount = (countActive s.methods : Int)

theorem checkActiveCount_iff (s : Controls) : checkActiveCount s = true ↔ countOk s := by
  simp [checkActiveCount, countOk, countActive, beq_iff_eq, Int.ofNat_eq_natCast]

@[simp]
theorem ite_incr_fst_methods (c : Bool) (s1 : Controls) :
    (if c = true then incrementActiveCount s1 else (s1, [])).1.methods = s1.methods := by
  cases c <;> simp

@[simp]
theorem ite_decr_fst_methods (c : Bool) (s1 : Controls) :
    (if c = true then decrementActiveCount s1 else (s1, [])).1.methods = s1.methods := by
  cases c <;> simp

@[simp]
theorem ite_incr_fst_enabled (c : Bool) (s1 : Controls) :
    (if c = true then incrementActiveCount s1 else (s1, [])).1.enabled = s1.enabled := by
  cases c <;> simp

@[simp]
theorem ite_decr_fst_enabled (c : Bool) (s1 : Controls) :
    (if c = true then decrementActiveCount s1 else (s1, [])).1.enabled = s1.enabled := by
  cases c <;> simp

@[simp]
theorem ite_incr_fst_composer (c : Bool) (s1 : Controls) :
    (if c = true then incrementActiveCount s1 else (s1, [])).1.composer = s1.composer := by
  cases c <;> simp

@[simp]
theorem ite_decr_fst_composer (c : Bool) (s1 : Controls) :
    (if c = true then decrementActiveCount s1 else (s1, [])).1.composer = s1.composer := by
  cases c <;> simp

theorem getA_setA_self {β : Type} (l : List (String × β)) (id : String) (w : β)
    (h : (getA l id).isSome = true) : getA (setA l id w) id = some w := by
  induction l with
  | nil => simp [getA] at h
  | cons hd tl ih =>
    obtain ⟨k, v⟩ := hd
    by_cases hk : k = id
    · rw [setA, if_pos hk, getA, if_pos hk]
    · rw [getA, if_neg hk] at h
      rw [setA, if_neg hk, getA, if_neg hk]
      exact ih h

theorem getA_setA_none {β : Type} (l : List (String × β)) (id j : String) (w : β)
    (h : getA l j = none) : getA (setA l id w) j = none := by
  induction l with
  | nil => simpa [setA] using h
  | cons hd tl ih =>
    obtain ⟨k, v⟩ := hd
    rw [getA] at h
    by_cases hj : k = j
    · rw [if_pos hj] at h
      exact absurd h (by simp)
    · rw [if_neg hj] at h
      by_cases hk : k = id
      · rw [setA, if_pos hk, getA, if_neg hj]
        exact h
      · rw [setA, if_neg hk, getA, if_neg hj]
        exact ih h

theorem countActive_setA (l : List (String × MethodRec)) (id : String) (m w : MethodRec)
    (h : getA l id = some m) :
    countActive (setA l id w) + (if m.enabled && m.active then 1 else 0)
      = countActive l + (if w.enabled && w.active then 1 else 0) := by
  induction l with
  | nil => simp [getA] at h
  | cons hd tl ih =>
    obtain ⟨k, v⟩ := hd
    rw [getA] at h
    by_cases hk : k = id
    · rw [if_pos hk] at h
      injection h with h
      subst h
      rw [setA, if_pos hk]
      simp only [countActive, List.countP_cons]
      omega
    · rw [if_neg hk] at h
      rw [setA, if_neg hk]
      simp only [countActive, List.countP_cons] at ih ⊢
      have h2 := ih h
      omega

theorem countActive_delA (l : List (String × MethodRec)) (id : String) (m : MethodRec)
    (h : getA l id = some m) :
    countActive (delA l id) + (if m.enabled && m.active then 1 else 0) = countActive l := by
  induction l with
  | nil => simp [getA] at h
  | cons hd tl ih =>
    obtain ⟨k, v⟩ := hd
    rw [getA] at h
    by_cases hk : k = id
    · rw [if_pos hk] at h
      injection h with h
      subst h
      rw [delA, if_pos hk]
      simp only [countActive, List.countP_cons]
    · rw [if_neg hk] at h
      rw [delA, if_neg hk]
      simp only [countActive, List.countP_cons] at ih ⊢
      have h2 := ih h
      omega

theorem countActive_append_one (l : List (String × MethodRec)) (id : String) (m : MethodRec) :
    countActive (l ++ [(id, m)]) = countActive l + (if m.enabled && m.active then 1 else 0) := by
  simp [countActive, List.countP_append, List.countP_cons]

theorem countOk_enableMethod (s : Controls) (id : String) (h : countOk s) :
    countOk (enableMethod s id).s := by
  match hg : getA s.methods id with
  | none => simpa [enableMethod, hg, failRes] using h
  | some m =>
    cases he : m.enabled with
    | true => simpa [enableMethod, hg, he, okRes] using h
    | false =>
      have hc := countActive_setA s.methods id m { m with enabled := true } hg
      simp only [he] at hc
      cases ha : m.active with
      | false =>
        simp [ha] at hc
        simp [countOk, enableMethod, hg, he, ha, okRes] at h ⊢
        omega
      | true =>
        simp [ha] at hc
        simp [countOk, enableMethod, hg, he, ha, okRes, incrementActiveCount] at h ⊢
        omega

theorem countOk_disableMethod (s : Controls) (id : String) (h : countOk s) :
    countOk (disableMethod s id).s := by
  match hg : getA s.methods id with
  | none => simpa [disableMethod, hg, failRes] using h
  | some m =>
    cases he : m.enabled with
    | false => simpa [disableMethod, hg, he, okRes] using h
    | true =>
      have hc := countActive_setA s.methods id m { m with enabled := false } hg
      simp only [he] at hc
      cases ha : m.active with
      | false =>
        simp [ha] at hc
        simp [countOk, disableMethod, hg, he, ha, okRes] at h ⊢
        omega
      | true =>
        simp [ha] at hc
        simp [countOk, disableMethod, hg, he, ha, okRes, decrementActiveCount] at h ⊢
        omega

theorem countOk_registerMethod (s : Controls) (id : String) (inst : Nat) (en : Bool)
    (h : countOk s) : countOk (registerMethod s id inst en).s := by
  by_cases hg : (getA s.methods id).isSome = true
  · simpa [registerMethod, hg, failRes] using h
  · have h1 : countOk { s with methods := s.methods ++ [(id, ⟨inst, false, false⟩)] } := by
      simp only [countOk, countActive_append_one]
      simpa using h
    cases en with
    | false =>
      simpa [registerMethod, hg, okRes] using h1
    | true =>
      have h2 := countOk_enableMethod
        { s with methods := s.methods ++ [(id, ⟨inst, false, false⟩)] } id h1
      simpa [registerMethod, hg] using h2

theorem countOk_unregisterMethod (s : Controls) (id : String) (h : countOk s) :
    countOk (unregisterMethod s id).s := by
  match hg : getA s.methods id with
  | none => simpa [unregisterMethod, hg, failRes] using h
  | some m =>
    cases he : m.enabled with
    | false =>
      have hc := countActive_delA s.methods id m hg
      simp only [he] at hc
      simp at hc
      simp [countOk, unregisterMethod, hg, he, okRes] at h ⊢
      omega
    | true =>
      have h2 := countOk_disableMethod s id h
      have hm : (disableMethod s id).s.methods
          = setA s.methods id { m with enabled := false } := by
        simp [disableMethod, hg, he, okRes]
      have hget2 : getA (disableMethod s id).s.methods id = some { m with enabled := false } := by
        rw [hm]
        exact getA_setA_self s.methods id { m with enabled := false } (by simp [hg])
      have hc := countActive_delA (disableMethod s id).s.methods id
        { m with enabled := false } hget2
      simp at hc
      simp only [countOk] at h2 ⊢
      simp [unregisterMethod, hg, he]
      omega

theorem countOk_runEach (f : Controls → String → OpResult)
    (hf : ∀ s id, countOk s → countOk (f s id).s) :
    ∀ (ids : List String) (s : Controls), countOk s → countOk (runEach f s ids).s := by
  intro ids
  induction ids with
  | nil =>
    intro s h
    simpa [runEach, okRes] using h
  | cons id rest ih =>
    intro s h
    rw [runEach]
    match hr : (f s id).err with
    | some e => simpa using hf s id h
    | none => simpa using ih (f s id).s (hf s id h)

theorem countOk_handleActive (s : Controls) (id : String) (h : countOk s) :
    countOk (handleActive s id).s := by
  match hg : getA s.methods id with
  | none => simpa [handleActive, hg, failRes] using h
  | some m =>
    cases he : m.enabled with
    | false => simpa [handleActive, hg, he, failRes] using h
    | true =>
      cases ha : m.active with
      | true => simpa [handleActive, hg, he, ha, okRes] using h
      | false =>
        have hc := countActive_setA s.methods id m { m with active := true } hg
        simp [he, ha] at hc
        simp [countOk, handleActive, hg, he, ha, okRes, incrementActiveCount] at h ⊢
        omega

theorem countOk_handleInactive (s : Controls) (id : String) (h : countOk s) :
    countOk (handleInactive s id).s := by
  match hg : getA s.methods id with
  | none => simpa [handleInactive, hg, failRes] using h
  | some m =>
    cases he : m.enabled with
    | false => simpa [handleInactive, hg, he, failRes] using h
    | true =>
      cases ha : m.active with
      | false => simpa [handleInactive, hg, he, ha, okRes] using h
      | true =>
        have hc := countActive_setA s.methods id m { m with active := false } hg
        simp [he, ha] at hc
        simp [countOk, handleInactive, hg, he, ha, okRes, decrementActiveCount] at h ⊢
        omega

theorem countOk_stepOp (s : Controls) (op : Op) (h : countOk s) : countOk (stepOp s op).s := by
  cases op with
  | register id inst en => exact countOk_registerMethod s id inst en h
  | unregister id => exact countOk_unregisterMethod s id h
  | enableM id => exact countOk_enableMethod s id h
  | disableM id => exact countOk_disableMethod s id h
  | addGroup gid ids => simpa [stepOp, addMethodGroup, okRes, countOk] using h
  | removeGroup gid => simpa [stepOp, removeMethodGroup, okRes, countOk] using h
  | enableGroup gid =>
    rw [stepOp, enableMethodGroup]
    match getA s.methodGroups gid with
    | none => simpa [failRes] using h
    | some ids => exact countOk_runEach enableMethod countOk_enableMethod ids s h
  | disableGroup gid =>
    rw [stepOp, disableMethodGroup]
    match getA s.methodGroups gid with
    | none => simpa [failRes] using h
    | some ids => exact countOk_runEach disableMethod countOk_disableMethod ids s h
  | engineEnable =>
    rw [stepOp, enable]
    by_cases hen : s.enabled = true
    · simpa [hen, okRes] using h
    · simpa [hen, okRes, countOk] using h
  | engineDisable =>
    rw [stepOp, disable]
    by_cases hen : s.enabled = true
    · simpa [hen, okRes, countOk] using h
    · simpa [hen, okRes] using h
  | activeEv id => exact countOk_handleActive s id h
  | inactiveEv id => exact countOk_handleInactive s id h

theorem countOk_runOps :
    ∀ (ops : List Op) (s : Controls), countOk s → countOk (runOps s ops) := by
  intro ops
  induction ops with
  | nil =>
    intro s h
    simpa [runOps] using h
  | cons op rest ih =>
    intro s h
    rw [runOps]
    exact ih (stepOp s op).s (countOk_stepOp s op h)

/-- C1: for every constructor argument and every sequence of engine
operations and delivered activity events, after every operation (every
prefix of the sequence is itself such a sequence) the maintained activeCount
equals the debug recount of records with both flags set, even when an
operation aborted with a usage error. -/
theorem activeCount_invariant (opts : Option ControlsOpts) (ops : List Op) :
    checkActiveCount (runOps (controlsCtor opts) ops) = true := by
  rw [checkActiveCount_iff]
  apply countOk_runOps
  simp [countOk, controlsCtor, countActive]

/-! Usage errors (C6). -/

/-- A reachable state with one registered, disabled method "a" and a method
group "g" naming "a" together with the stale id "x". -/
def sExG : Controls :=
  runOps (controlsCtor none) [Op.register "a" 0 false, Op.addGroup "g" ["a", "x"]]

/-- C6 is false as stated for group operations: enableMethodGroup over a
group holding a stale id raises synchronously, yet the id processed earlier
in the group stays enabled, a mutation of engine state surviving the
aborted call. -/
theorem group_mutation_counterexample :
    (enableMethodGroup sExG "g").err.isSome = true
      ∧ (getA (enableMethodGroup sExG "g").s.methods "a").map MethodRec.enabled = some true
      ∧ (getA sExG.methods "a").map MethodRec.enabled = some false
      ∧ (enableMethodGroup sExG "g").s ≠ sExG := by
  decide

theorem enableMethod_stale_preserved (s : Controls) (j i : String)
    (h : getA s.methods i = none) : getA (enableMethod s j).s.methods i = none := by
  match hg : getA s.methods j with
  | none => simpa [enableMethod, hg, failRes] using h
  | some m =>
    cases he : m.enabled with
    | true => simpa [enableMethod, hg, he, okRes] using h
    | false =>
      simp [enableMethod, hg, he, okRes]
      exact getA_setA_none s.methods j i { m with enabled := true } h

theorem disableMethod_stale_preserved (s : Controls) (j i : String)
    (h : getA s.methods i = none) : getA (disableMethod s j).s.methods i = none := by
  match hg : getA s.methods j with
  | none => simpa [disableMethod, hg, failRes] using h
  | some m =>
    cases he : m.enabled with
    | false => simpa [disableMethod, hg, he, okRes] using h
    | true =>
      simp [disableMethod, hg, he, okRes]
      exact getA_setA_none s.methods j i { m with enabled := false } h

theorem runEach_stale (f : Controls → String → OpResult)
    (hpres : ∀ (s : Controls) (j i : String),
      getA s.methods i = none → getA (f s j).s.methods i = none)
    (hfail : ∀ (s : Controls) (i : String),
      getA s.methods i = none → (f s i).err.isSome = true) :
    ∀ (ids : List String) (s : Controls) (i : String),
      i ∈ ids → getA s.methods i = none → (runEach f s ids).err.isSome = true := by
  intro ids
  induction ids with
  | nil =>
    intro s i hi h
    simp at hi
  | cons j rest ih =>
    intro s i hi h
    rw [runEach]
    match hr : (f s j).err with
    | some e => simp
    | none =>
      rcases List.mem_cons.mp hi with h1 | h2
      · subst h1
        have h3 := hfail s i h
        rw [hr] at h3
        simp at h3
      · have h3 := hpres s j i h
        simpa using ih (f s j).s i h2 h3

/-- C6 (amended): the single-method usage errors, an unknown id given to
enableMethod, disableMethod or unregisterMethod and a doubly registered id
given to registerMethod, raise synchronously and abort with no mutation of
engine state and no events; a stale id reached inside enableMethodGroup or
disableMethodGroup makes the group call raise rather than swallow the
single-method failure, the failing single-method call itself mutating
nothing, although ids processed earlier in the group keep their new state. -/
theorem usage_errors_abort (s : Controls) (id gid : String) (inst : Nat) (en : Bool)
    (ids : List String) :
    ((getA s.methods id).isSome = true →
      (registerMethod s id inst en).err.isSome = true
        ∧ (registerMethod s id inst en).s = s
        ∧ (registerMethod s id inst en).evs = [])
  ∧ (getA s.methods id = none →
      ((enableMethod s id).err.isSome = true
        ∧ (enableMethod s id).s = s ∧ (enableMethod s id).evs = [])
      ∧ ((disableMethod s id).err.isSome = true
        ∧ (disableMethod s id).s = s ∧ (disableMethod s id).evs = [])
      ∧ ((unregisterMethod s id).err.isSome = true
        ∧ (unregisterMethod s id).s = s ∧ (unregisterMethod s id).evs = []))
  ∧ (getA s.methodGroups gid = some ids →
      (∃ i, i ∈ ids ∧ getA s.methods i = none) →
      (enableMethodGroup s gid).err.isSome = true
        ∧ (disableMethodGroup s gid).err.isSome = true) := by
  refine ⟨fun h => ?_, fun h => ?_, fun hg hex => ?_⟩
  · simp [registerMethod, h, failRes]
  · refine ⟨?_, ?_, ?_⟩
    · simp [enableMethod, h, failRes]
    · simp [disableMethod, h, failRes]
    · simp [unregisterMethod, h, failRes]
  · obtain ⟨i, hi, hnone⟩ := hex
    constructor
    · rw [enableMethodGroup, hg]
      exact runEach_stale enableMethod enableMethod_stale_preserved
        (fun s2 i2 h2 => by simp [enableMethod, h2, failRes]) ids s i hi hnone
    · rw [disableMethodGroup, hg]
      exact runEach_stale disableMethod disableMethod_stale_preserved
        (fun s2 i2 h2 => by simp [disableMethod, h2, failRes]) ids s i hi hnone

/-- Witness for C6 amended at concrete states. -/
theorem usage_errors_abort_witness :
    (registerMethod sExG "a" 5 false).err.isSome = true
      ∧ (enableMethod sExG "x").s = sExG
      ∧ (enableMethodGroup sExG "g").err.isSome = true := by
  have h1 := (usage_errors_abort sExG "a" "g" 5 false ["a", "x"]).1 (by decide)
  have h2 := (usage_errors_abort sExG "x" "g" 5 false ["a", "x"]).2.1 (by decide)
  have h3 := (usage_errors_abort sExG "a" "g" 5 false ["a", "x"]).2.2 (by decide)
    ⟨"x", by decide, by decide⟩
  exact ⟨h1.1, h2.1.2.1, h3.1⟩

/-! Composer membership exactness (C2). -/

/-- The instances of all registered records. -/
def instOf (l : List (String × MethodRec)) : List Nat :=
  l.map fun p => p.2.instance_

/-- No two registered records share a control-method instance. -/
def InjInst (s : Controls) : Prop :=
  (instOf s.methods).Nodup

/-- The instances of the records of l engaged under engine flag eng. -/
def engagedInst (eng : Bool) (l : List (String × MethodRec)) : List Nat :=
  (l.filter fun p => eng && p.2.enabled).map fun p => p.2.instance_

/-- The membership set the spec prescribes for the Composer: the instances of
records enabled together with the engine. -/
def specEngaged (s : Controls) : List Nat :=
  engagedInst s.enabled s.methods

/-- The Composer membership set is exactly the prescribed set. -/
def ComposerExact (s : Controls) : Prop :=
  ∀ i : Nat, i ∈ s.composer ↔ i ∈ specEngaged s

/-- A reachable state in which two ids share one instance: "b" and "a" are
registered over instance 0, then "b" is enabled. -/
def sExD : Controls :=
  runOps (controlsCtor none)
    [Op.register "b" 0 false, Op.register "a" 0 false, Op.enableM "b"]

/-- C2 is false as stated: in sExD the record "b" is enabled and the engine
is enabled, so instance 0 belongs to the prescribed membership set, yet the
update loop removed it again while visiting the disabled record "a" sharing
the instance, leaving it out of the Composer. -/
theorem composer_membership_counterexample :
    (getA sExD.methods "b").map MethodRec.enabled = some true
      ∧ sExD.enabled = true
      ∧ 0 ∈ specEngaged sExD
      ∧ 0 ∉ sExD.composer
      ∧ ¬ ComposerExact sExD := by
  refine ⟨by decide, by decide, by decide, by decide, fun h => ?_⟩
  have h2 := (h 0).mpr (by decide)
  revert h2
  decide

theorem composerHas_iff (comp : List Nat) (inst : Nat) :
    composerHas comp inst = true ↔ inst ∈ comp := by
  simp [composerHas, List.elem_iff, List.contains]

/-- Membership after one iteration of the update loop: the visited record
decides its own instance, every other instance is untouched. -/
theorem mem_composerStep (eng : Bool) (m : MethodRec) (comp : List Nat) (j : Nat) :
    j ∈ composerStep eng m comp
      ↔ (if j = m.instance_ then (eng && m.enabled) = true else j ∈ comp) := by
  simp only [composerStep]
  cases hen : eng && m.enabled with
  | true =>
    cases hhas : composerHas comp m.instance_ with
    | true =>
      have hmem := (composerHas_iff comp m.instance_).mp hhas
      simp [hhas]
      by_cases hj : j = m.instance_
      · simp [hj, hmem]
      · simp [hj]
    | false =>
      simp [hhas, composerAdd]
      by_cases hj : j = m.instance_
      · simp [hj]
      · simp [hj]
  | false =>
    cases hhas : composerHas comp m.instance_ with
    | true =>
      simp [hhas, composerRemove]
      by_cases hj : j = m.instance_
      · simp [hj]
      · simp [hj]
    | false =>
      have hnot : m.instance_ ∉ comp := by
        intro hc
        exact absurd ((composerHas_iff comp m.instance_).mpr hc) (by simp [hhas])
      simp [hhas]
      by_cases hj : j = m.instance_
      · subst hj
        simp [hnot]
      · simp [hj]

/-- Membership after the whole update loop, provided no two records share an
instance: an instance of some record is present exactly when its record is
engaged, and an instance of no record keeps its previous membership. -/
theorem mem_updateComposerFold (eng : Bool) (i : Nat) :
    ∀ (l : List (String × MethodRec)) (comp : List Nat),
      (instOf l).Nodup →
      (i ∈ updateComposerFold eng l comp
        ↔ ((∃ p, p ∈ l ∧ p.2.instance_ = i ∧ (eng && p.2.enabled) = true)
            ∨ (i ∈ comp ∧ ∀ p, p ∈ l → p.2.instance_ ≠ i))) := by
  intro l
  induction l with
  | nil =>
    intro comp hn
    simp [updateComposerFold]
  | cons hd rest ih =>
    intro comp hn
    obtain ⟨k, m⟩ := hd
    simp only [instOf, List.map_cons, List.nodup_cons] at hn
    obtain ⟨hnotin, hnodup⟩ := hn
    rw [updateComposerFold, ih (composerStep eng m comp) hnodup, mem_composerStep]
    by_cases hj : i = m.instance_
    · rw [if_pos hj]
      constructor
      · rintro (⟨p, hp, hpi, hpe⟩ | ⟨hc, hall⟩)
        · exfalso
          apply hnotin
          have h5 : p.2.instance_ ∈ List.map (fun p => p.2.instance_) rest :=
            List.mem_map_of_mem (fun p => p.2.instance_) hp
          rw [hpi.trans hj] at h5
          exact h5
        · exact Or.inl ⟨(k, m), List.mem_cons_self _ _, hj.symm, hc⟩
      · rintro (⟨p, hp, hpi, hpe⟩ | ⟨hc, hall⟩)
        · rcases List.mem_cons.mp hp with h1 | h1
          · refine Or.inr ⟨by rw [h1] at hpe; exact hpe, fun q hq hqq => ?_⟩
            apply hnotin
            have h5 : q.2.instance_ ∈ List.map (fun p => p.2.instance_) rest :=
              List.mem_map_of_mem (fun p => p.2.instance_) hq
            rw [hqq.trans hj] at h5
            exact h5
          · exfalso
            apply hnotin
            have h5 : p.2.instance_ ∈ List.map (fun p => p.2.instance_) rest :=
              List.mem_map_of_mem (fun p => p.2.instance_) h1
            rw [hpi.trans hj] at h5
            exact h5
        · exact absurd hj.symm (hall (k, m) (List.mem_cons_self _ _))
    · rw [if_neg hj]
      constructor
      · rintro (⟨p, hp, hpi, hpe⟩ | ⟨hc, hall⟩)
        · exact Or.inl ⟨p, List.mem_cons_of_mem _ hp, hpi, hpe⟩
        · refine Or.inr ⟨hc, fun q hq => ?_⟩
          rcases List.mem_cons.mp hq with h1 | h1
          · rw [h1]
            exact fun hqq => hj hqq.symm
          · exact hall q h1
      · rintro (⟨p, hp, hpi, hpe⟩ | ⟨hc, hall⟩)
        · rcases List.mem_cons.mp hp with h1 | h1
          · exfalso
            apply hj
            rw [h1] at hpi
            exact hpi.symm
          · exact Or.inl ⟨p, h1, hpi, hpe⟩
        · exact Or.inr ⟨hc, fun q hq => hall q (List.mem_cons_of_mem _ hq)⟩

theorem mem_specEngaged (s : Controls) (i : Nat) :
    i ∈ specEngaged s
      ↔ ∃ p, p ∈ s.methods ∧ p.2.instance_ = i ∧ (s.enabled && p.2.enabled) = true := by
  simp only [specEngaged, engagedInst, List.mem_map, List.mem_filter]
  constructor
  · rintro ⟨p, ⟨hp, hpe⟩, hpi⟩
    exact ⟨p, hp, hpi, hpe⟩
  · rintro ⟨p, hp, hpi, hpe⟩
    exact ⟨p, ⟨hp, hpe⟩, hpi⟩

theorem specEngaged_subset_instOf (s : Controls) (i : Nat) (h : i ∈ specEngaged s) :
    i ∈ instOf s.methods := by
  rw [mem_specEngaged] at h
  obtain ⟨p, hp, hpi, h3⟩ := h
  have h5 : p.2.instance_ ∈ List.map (fun p => p.2.instance_) s.methods :=
    List.mem_map_of_mem (fun p => p.2.instance_) hp
  rw [hpi] at h5
  exact h5

/-- Running the membership recomputation restores exactness, provided the
instances are distinct and every current member is some record instance. -/
theorem composerExact_updateComposer (s : Controls) (hinj : InjInst s)
    (hsub : ∀ i, i ∈ s.composer → i ∈ instOf s.methods) :
    ComposerExact (updateComposer s) := by
  intro i
  have h1 := mem_updateComposerFold s.enabled i s.methods s.composer hinj
  constructor
  · intro hmem
    rcases h1.mp hmem with h2 | ⟨hc, hall⟩
    · rw [mem_specEngaged]
      exact h2
    · exfalso
      have h3 := hsub i hc
      rcases List.mem_map.mp h3 with ⟨p, hp, hpi⟩
      exact hall p hp hpi
  · intro hmem
    apply h1.mpr
    left
    rw [mem_specEngaged] at hmem
    exact hmem

/-- The Composer invariant carried through every operation: distinct
instances and exact membership. -/
def Good (s : Controls) : Prop :=
  InjInst s ∧ ComposerExact s

theorem good_sub (s : Controls) (hex : ComposerExact s) :
    ∀ i, i ∈ s.composer → i ∈ instOf s.methods :=
  fun i hi => specEngaged_subset_instOf s i ((hex i).mp hi)

theorem good_updateComposer (s : Controls) (hinj : InjInst s)
    (hsub : ∀ i, i ∈ s.composer → i ∈ instOf s.methods) :
    Good (updateComposer s) :=
  ⟨hinj, composerExact_updateComposer s hinj hsub⟩

theorem instOf_setA (l : List (String × MethodRec)) (id : String) (m w : MethodRec)
    (hg : getA l id = some m) (hw : w.instance_ = m.instance_) :
    instOf (setA l id w) = instOf l := by
  induction l with
  | nil => rfl
  | cons hd tl ih =>
    obtain ⟨k, v⟩ := hd
    rw [getA] at hg
    by_cases hk : k = id
    · rw [if_pos hk] at hg
      injection hg with hg
      subst hg
      rw [setA, if_pos hk]
      simp [instOf, hw]
    · rw [if_neg hk] at hg
      rw [setA, if_neg hk]
      have h2 := ih hg
      simp only [instOf, List.map_cons] at h2 ⊢
      rw [h2]

theorem delA_sublist {β : Type} (l : List (String × β)) (id : String) :
    List.Sublist (delA l id) l := by
  induction l with
  | nil => simp [delA]
  | cons hd tl ih =>
    obtain ⟨k, v⟩ := hd
    rw [delA]
    by_cases hk : k = id
    · rw [if_pos hk]
      exact List.sublist_cons_self _ _
    · rw [if_neg hk]
      exact List.Sublist.cons₂ _ ih

theorem engagedInst_cons (eng : Bool) (k : String) (v : MethodRec)
    (l : List (String × MethodRec)) :
    engagedInst eng ((k, v) :: l)
      = if eng && v.enabled then v.instance_ :: engagedInst eng l
        else engagedInst eng l := by
  simp only [engagedInst, List.filter_cons]
  cases hcond : eng && v.enabled with
  | true => simp [hcond]
  | false => simp [hcond]

theorem engagedInst_setA_same (eng : Bool) (l : List (String × MethodRec)) (id : String)
    (m w : MethodRec) (hg : getA l id = some m) (hw : w.instance_ = m.instance_)
    (hen : w.enabled = m.enabled) :
    engagedInst eng (setA l id w) = engagedInst eng l := by
  induction l with
  | nil => rfl
  | cons hd tl ih =>
    obtain ⟨k, v⟩ := hd
    rw [getA] at hg
    by_cases hk : k = id
    · rw [if_pos hk] at hg
      injection hg with hg
      subst hg
      rw [setA, if_pos hk, engagedInst_cons, engagedInst_cons, hen, hw]
    · rw [if_neg hk] at hg
      rw [setA, if_neg hk, engagedInst_cons, engagedInst_cons, ih hg]

theorem engagedInst_delA_disabled (eng : Bool) (l : List (String × MethodRec)) (id : String)
    (m : MethodRec) (hg : getA l id = some m) (he : m.enabled = false) :
    engagedInst eng (delA l id) = engagedInst eng l := by
  induction l with
  | nil => rfl
  | cons hd tl ih =>
    obtain ⟨k, v⟩ := hd
    rw [getA] at hg
    by_cases hk : k = id
    · rw [if_pos hk] at hg
      injection hg with hg
      subst hg
      rw [delA, if_pos hk, engagedInst_cons]
      simp [he]
    · rw [if_neg hk] at hg
      rw [delA, if_neg hk, engagedInst_cons, engagedInst_cons, ih hg]

theorem engagedInst_append_disabled (eng : Bool) (l : List (String × MethodRec))
    (id : String) (m : MethodRec) (he : m.enabled = false) :
    engagedInst eng (l ++ [(id, m)]) = engagedInst eng l := by
  simp [engagedInst, List.filter_append, List.filter_cons, he]

theorem good_enableMethod (s : Controls) (id : String) (h : Good s) :
    Good (enableMethod s id).s := by
  obtain ⟨hinj, hex⟩ := h
  match hg : getA s.methods id with
  | none =>
    simp [enableMethod, hg, failRes]
    exact ⟨hinj, hex⟩
  | some m =>
    cases he : m.enabled with
    | true =>
      simp [enableMethod, hg, he, okRes]
      exact ⟨hinj, hex⟩
    | false =>
      have hio := instOf_setA s.methods id m { m with enabled := true } hg rfl
      have hinj1 : InjInst { s with methods := setA s.methods id { m with enabled := true } } := by
        show (instOf (setA s.methods id { m with enabled := true })).Nodup
        rw [hio]
        exact hinj
      have hsub1 : ∀ i, i ∈ s.composer
          → i ∈ instOf (setA s.methods id { m with enabled := true }) := by
        intro i hi
        rw [hio]
        exact good_sub s hex i hi
      cases ha : m.active with
      | false =>
        have hgood := good_updateComposer
          { s with methods := setA s.methods id { m with enabled := true } } hinj1 hsub1
        simp [enableMethod, hg, he, ha, okRes]
        rw [ha] at hgood
        exact hgood
      | true =>
        have hgood := good_updateComposer
          (incrementActiveCount
            { s with methods := setA s.methods id { m with enabled := true } }).1 hinj1 hsub1
        simp [enableMethod, hg, he, ha, okRes]
        rw [ha] at hgood
        exact hgood

theorem good_disableMethod (s : Controls) (id : String) (h : Good s) :
    Good (disableMethod s id).s := by
  obtain ⟨hinj, hex⟩ := h
  match hg : getA s.methods id with
  | none =>
    simp [disableMethod, hg, failRes]
    exact ⟨hinj, hex⟩
  | some m =>
    cases he : m.enabled with
    | false =>
      simp [disableMethod, hg, he, okRes]
      exact ⟨hinj, hex⟩
    | true =>
      have hio := instOf_setA s.methods id m { m with enabled := false } hg rfl
      have hinj1 : InjInst { s with methods := setA s.methods id { m with enabled := false } } := by
        show (instOf (setA s.methods id { m with enabled := false })).Nodup
        rw [hio]
        exact hinj
      have hsub1 : ∀ i, i ∈ s.composer
          → i ∈ instOf (setA s.methods id { m with enabled := false }) := by
        intro i hi
        rw [hio]
        exact good_sub s hex i hi
      cases ha : m.active with
      | false =>
        have hgood := good_updateComposer
          { s with methods := setA s.methods id { m with enabled := false } } hinj1 hsub1
        simp [disableMethod, hg, he, ha, okRes]
        rw [ha] at hgood
        exact hgood
      | true =>
        have hgood := good_updateComposer
          (decrementActiveCount
            { s with methods := setA s.methods id { m with enabled := false } }).1 hinj1 hsub1
        simp [disableMethod, hg, he, ha, okRes]
        rw [ha] at hgood
        exact hgood

theorem good_registerMethod (s : Controls) (id : String) (inst : Nat) (en : Bool)
    (h : Good s) (hfresh : inst ∉ instOf s.methods) :
    Good (registerMethod s id inst en).s := by
  obtain ⟨hinj, hex⟩ := h
  by_cases hg : (getA s.methods id).isSome = true
  · simp [registerMethod, hg, failRes]
    exact ⟨hinj, hex⟩
  · have hinj1 : InjInst { s with methods := s.methods ++ [(id, ⟨inst, false, false⟩)] } := by
      show (instOf (s.methods ++ [(id, ⟨inst, false, false⟩)])).Nodup
      simp only [instOf, List.map_append, List.map_cons, List.map_nil]
      rw [List.nodup_append]
      refine ⟨hinj, by simp, fun a ha hb => ?_⟩
      simp only [List.mem_singleton] at hb
      subst hb
      exact hfresh ha
    have hex1 : ComposerExact { s with methods := s.methods ++ [(id, ⟨inst, false, false⟩)] } := by
      intro i
      have he2 : engagedInst s.enabled (s.methods ++ [(id, ⟨inst, false, false⟩)])
          = engagedInst s.enabled s.methods :=
        engagedInst_append_disabled s.enabled s.methods id ⟨inst, false, false⟩ rfl
      show i ∈ s.composer ↔ i ∈ engagedInst s.enabled (s.methods ++ [(id, ⟨inst, false, false⟩)])
      rw [he2]
      exact hex i
    cases en with
    | false =>
      simp [registerMethod, hg, okRes]
      exact ⟨hinj1, hex1⟩
    | true =>
      have h2 := good_enableMethod
        { s with methods := s.methods ++ [(id, ⟨inst, false, false⟩)] } id ⟨hinj1, hex1⟩
      simp [registerMethod, hg]
      exact h2

theorem good_unregisterMethod (s : Controls) (id : String) (h : Good s) :
    Good (unregisterMethod s id).s := by
  obtain ⟨hinj, hex⟩ := h
  match hg : getA s.methods id with
  | none =>
    simp [unregisterMethod, hg, failRes]
    exact ⟨hinj, hex⟩
  | some m =>
    cases he : m.enabled with
    | false =>
      have hinj2 : InjInst { s with methods := delA s.methods id } := by
        show (instOf (delA s.methods id)).Nodup
        exact List.Sublist.nodup (List.Sublist.map _ (delA_sublist s.methods id)) hinj
      have hex2 : ComposerExact { s with methods := delA s.methods id } := by
        intro i
        have he2 : engagedInst s.enabled (delA s.methods id)
            = engagedInst s.enabled s.methods :=
          engagedInst_delA_disabled s.enabled s.methods id m hg he
        show i ∈ s.composer ↔ i ∈ engagedInst s.enabled (delA s.methods id)
        rw [he2]
        exact hex i
      simp [unregisterMethod, hg, he, okRes]
      exact ⟨hinj2, hex2⟩
    | true =>
      obtain ⟨hinj2, hex2⟩ := good_disableMethod s id ⟨hinj, hex⟩
      have hm : (disableMethod s id).s.methods
          = setA s.methods id { m with enabled := false } := by
        simp [disableMethod, hg, he, okRes]
      have hget2 : getA (disableMethod s id).s.methods id
          = some { m with enabled := false } := by
        rw [hm]
        exact getA_setA_self s.methods id { m with enabled := false } (by simp [hg])
      have hinj3 : InjInst
          { (disableMethod s id).s with methods := delA (disableMethod s id).s.methods id } := by
        show (instOf (delA (disableMethod s id).s.methods id)).Nodup
        exact List.Sublist.nodup (List.Sublist.map _ (delA_sublist _ id)) hinj2
      have hex3 : ComposerExact
          { (disableMethod s id).s with methods := delA (disableMethod s id).s.methods id } := by
        intro i
        have he2 : engagedInst (disableMethod s id).s.enabled
              (delA (disableMethod s id).s.methods id)
            = engagedInst (disableMethod s id).s.enabled (disableMethod s id).s.methods :=
          engagedInst_delA_disabled _ _ id { m with enabled := false } hget2 rfl
        show i ∈ (disableMethod s id).s.composer
          ↔ i ∈ engagedInst (disableMethod s id).s.enabled (delA (disableMethod s id).s.methods id)
        rw [he2]
        exact hex2 i
      simp [unregisterMethod, hg, he]
      exact ⟨hinj3, hex3⟩

theorem good_engineEnable (s : Controls) (h : Good s) : Good (enable s).s := by
  obtain ⟨hinj, hex⟩ := h
  by_cases hen : s.enabled = true
  · simp [enable, hen, okRes]
    exact ⟨hinj, hex⟩
  · have hgood := good_updateComposer { s with enabled := true } hinj
      (fun i hi => good_sub s hex i hi)
    simp [enable, hen, okRes]
    exact hgood

theorem good_engineDisable (s : Controls) (h : Good s) : Good (disable s).s := by
  obtain ⟨hinj, hex⟩ := h
  by_cases hen : s.enabled = true
  · have hgood := good_updateComposer { s with enabled := false } hinj
      (fun i hi => good_sub s hex i hi)
    simp [disable, hen, okRes]
    exact hgood
  · simp [disable, hen, okRes]
    exact ⟨hinj, hex⟩

theorem good_handleActive (s : Controls) (id : String) (h : Good s) :
    Good (handleActive s id).s := by
  obtain ⟨hinj, hex⟩ := h
  match hg : getA s.methods id with
  | none =>
    simp [handleActive, hg, failRes]
    exact ⟨hinj, hex⟩
  | some m =>
    cases he : m.enabled with
    | false =>
      simp [handleActive, hg, he, failRes]
      exact ⟨hinj, hex⟩
    | true =>
      cases ha : m.active with
      | true =>
        simp [handleActive, hg, he, ha, okRes]
        exact ⟨hinj, hex⟩
      | false =>
        have hio := instOf_setA s.methods id m { m with active := true } hg rfl
        have hinj2 : InjInst { s with methods := setA s.methods id { m with active := true } } := by
          show (instOf (setA s.methods id { m with active := true })).Nodup
          rw [hio]
          exact hinj
        have hex2 : ComposerExact
            { s with methods := setA s.methods id { m with active := true } } := by
          intro i
          have he2 : engagedInst s.enabled (setA s.methods id { m with active := true })
              = engagedInst s.enabled s.methods :=
            engagedInst_setA_same s.enabled s.methods id m { m with active := true } hg rfl rfl
          show i ∈ s.composer ↔ i ∈ engagedInst s.enabled (setA s.methods id { m with active := true })
          rw [he2]
          exact hex i
        simp [handleActive, hg, he, ha, okRes, incrementActiveCount]
        rw [he] at hinj2 hex2
        exact ⟨hinj2, hex2⟩

theorem good_handleInactive (s : Controls) (id : String) (h : Good s) :
    Good (handleInactive s id).s := by
  obtain ⟨hinj, hex⟩ := h
  match hg : getA s.methods id with
  | none =>
    simp [handleInactive, hg, failRes]
    exact ⟨hinj, hex⟩
  | some m =>
    cases he : m.enabled with
    | false =>
      simp [handleInactive, hg, he, failRes]
      exact ⟨hinj, hex⟩
    | true =>
      cases ha : m.active with
      | false =>
        simp [handleInactive, hg, he, ha, okRes]
        exact ⟨hinj, hex⟩
      | true =>
        have hio := instOf_setA s.methods id m { m with active := false } hg rfl
        have hinj2 : InjInst { s with methods := setA s.methods id { m with active := false } } := by
          show (instOf (setA s.methods id { m with active := false })).Nodup
          rw [hio]
          exact hinj
        have hex2 : ComposerExact
            { s with methods := setA s.methods id { m with active := false } } := by
          intro i
          have he2 : engagedInst s.enabled (setA s.methods id { m with active := false })
              = engagedInst s.enabled s.methods :=
            engagedInst_setA_same s.enabled s.methods id m { m with active := false } hg rfl rfl
          show i ∈ s.composer ↔ i ∈ engagedInst s.enabled (setA s.methods id { m with active := false })
          rw [he2]
          exact hex i
        simp [handleInactive, hg, he, ha, okRes, decrementActiveCount]
        rw [he] at hinj2 hex2
        exact ⟨hinj2, hex2⟩

theorem good_runEach (f : Controls → String → OpResult)
    (hf : ∀ (s : Controls) (id : String), Good s → Good (f s id).s) :
    ∀ (ids : List String) (s : Controls), Good s → Good (runEach f s ids).s := by
  intro ids
  induction ids with
  | nil =>
    intro s h
    simpa [runEach, okRes] using h
  | cons id rest ih =>
    intro s h
    rw [runEach]
    match hr : (f s id).err with
    | some e => simpa using hf s id h
    | none => simpa using ih (f s id).s (hf s id h)

/-- A register call is instance-fresh when its instance is not already held
by a registered record; all other operations are unconditionally safe. -/
def opFresh (s : Controls) : Op → Bool
  | .register _ inst _ => !((instOf s.methods).contains inst)
  | _ => true

/-- Every register call along the run uses a fresh instance. -/
def safeOps : Controls → List Op → Bool
  | _, [] => true
  | s, op :: rest => opFresh s op && safeOps (stepOp s op).s rest

theorem good_stepOp (s : Controls) (op : Op) (h : Good s) (hfresh : opFresh s op = true) :
    Good (stepOp s op).s := by
  cases op with
  | register id inst en =>
    have hnot : inst ∉ instOf s.methods := by
      simp only [opFresh, Bool.not_eq_eq_eq_not, Bool.not_true] at hfresh
      intro hc
      have h2 : (instOf s.methods).contains inst = true :=
        (composerHas_iff (instOf s.methods) inst).mpr hc
      rw [h2] at hfresh
      simp at hfresh
    exact good_registerMethod s id inst en h hnot
  | unregister id => exact good_unregisterMethod s id h
  | enableM id => exact good_enableMethod s id h
  | disableM id => exact good_disableMethod s id h
  | addGroup gid ids =>
    obtain ⟨hinj, hex⟩ := h
    simp [stepOp, addMethodGroup, okRes]
    exact ⟨hinj, fun i => hex i⟩
  | removeGroup gid =>
    obtain ⟨hinj, hex⟩ := h
    simp [stepOp, removeMethodGroup, okRes]
    exact ⟨hinj, fun i => hex i⟩
  | enableGroup gid =>
    rw [stepOp, enableMethodGroup]
    match getA s.methodGroups gid with
    | none => simpa [failRes] using h
    | some ids => exact good_runEach enableMethod good_enableMethod ids s h
  | disableGroup gid =>
    rw [stepOp, disableMethodGroup]
    match getA s.methodGroups gid with
    | none => simpa [failRes] using h
    | some ids => exact good_runEach disableMethod good_disableMethod ids s h
  | engineEnable => exact good_engineEnable s h
  | engineDisable => exact good_engineDisable s h
  | activeEv id => exact good_handleActive s id h
  | inactiveEv id => exact good_handleInactive s id h

theorem good_runOps :
    ∀ (ops : List Op) (s : Controls),
      Good s → safeOps s ops = true → Good (runOps s ops) := by
  intro ops
  induction ops with
  | nil =>
    intro s h hs
    simpa [runOps] using h
  | cons op rest ih =>
    intro s h hs
    simp only [safeOps, Bool.and_eq_true] at hs
    obtain ⟨h1, h2⟩ := hs
    rw [runOps]
    exact ih (stepOp s op).s (good_stepOp s op h h1) h2

/-- C2 (amended): for every run in which distinct registered records hold
distinct control-method instances (each register call instance-fresh), after
every operation the Composer membership set is exactly the set of instances
of records whose enabled flag and the engine-wide enabled flag are both
true; and the membership recomputation touches nothing but the Composer, in
particular it emits no events and leaves every other engine field unchanged.
Without the distinctness proviso the claim fails, see the counterexample. -/
theorem composer_membership_exact_of_distinct (opts : Option ControlsOpts) (ops : List Op)
    (h : safeOps (controlsCtor opts) ops = true) :
    ComposerExact (runOps (controlsCtor opts) ops)
  ∧ ∀ t : Controls,
      (updateComposer t).methods = t.methods
        ∧ (updateComposer t).methodGroups = t.methodGroups
        ∧ (updateComposer t).enabled = t.enabled
        ∧ (updateComposer t).activeCount = t.activeCount := by
  constructor
  · have hgood : Good (controlsCtor opts) := by
      constructor
      · show (instOf ([] : List (String × MethodRec))).Nodup
        simp [instOf]
      · intro i
        show i ∈ ([] : List Nat) ↔ i ∈ engagedInst (controlsCtor opts).enabled []
        simp [engagedInst]
    exact (good_runOps ops (controlsCtor opts) hgood h).2
  · intro t
    exact ⟨rfl, rfl, rfl, rfl⟩

/-- Witness for C2 amended: a concrete distinct-instance run. -/
theorem composer_membership_exact_witness :
    safeOps (controlsCtor none) [Op.register "a" 4 true, Op.register "b" 9 false] = true
      ∧ ComposerExact (runOps (controlsCtor none)
          [Op.register "a" 4 true, Op.register "b" 9 false]) := by
  constructor
  · decide
  · exact (composer_membership_exact_of_distinct none
      [Op.register "a" 4 true, Op.register "b" 9 false] (by decide)).1

end Marzipano
